import Mathlib

/-!
Verification of the punp parallel text-rewriting engine.

This file gives a shallow embedding of the core of the punp repository
(the Aho-Corasick-style matcher, the protected-interval scanner, the
pager, the writeback step, the text heuristic and the thread sizing)
and proves or refutes the frozen specification claims about it.

Text is modelled as `List Char` (sequences of Unicode scalar values,
matching the `std::wstring` representation of the source).  Sizes and
positions are `Nat`; where the source relies on `size_t` wrap-around
(the pager's `end_pos - 100`), the wrap is modelled explicitly modulo
`2 ^ 64`.
-/

namespace Punp

/-! ## Matcher (src/algorithm/ac_automaton.h, src/ac_automaton.cpp)

`ACAutomaton::Node` holds a children map (scalar to child node), the
`replacement` text and `pattern_len` (0 when the node terminates no
pattern).  The `unordered_map` of children is modelled as an
association list with unique keys; the `fail` pointers are built by the
source but never read by `apply_replace`, so they are not modelled. -/

inductive Node : Type where
  | mk : List (Char × Node) → List Char → Nat → Node

def Node.children : Node → List (Char × Node)
  | .mk cs _ _ => cs

def Node.replacement : Node → List Char
  | .mk _ r _ => r

def Node.patternLen : Node → Nat
  | .mk _ _ l => l

/-- Lookup of `children.find(ch)` in the association-list model. -/
def findChild : List (Char × Node) → Char → Option Node
  | [], _ => none
  | (c', n) :: rest, c => if c' = c then some n else findChild rest c

/-- Update of `children[ch] = node` in the association-list model. -/
def setChild : List (Char × Node) → Char → Node → List (Char × Node)
  | [], c, n => [(c, n)]
  | (c', n') :: rest, c, n =>
      if c' = c then (c, n) :: rest else (c', n') :: setChild rest c n

/-- One pattern insertion of `build_from_map`'s trie-building loop: walk
`pat` from `node`, creating missing children, and store `rep` and the
full pattern length `fullLen` at the final node. -/
def insertPat (node : Node) (pat : List Char) (rep : List Char) (fullLen : Nat) : Node :=
  match pat with
  | [] => .mk node.children rep fullLen
  | c :: rest =>
      let child := (findChild node.children c).getD (.mk [] [] 0)
      .mk (setChild node.children c (insertPat child rest rep fullLen))
          node.replacement node.patternLen

/-- `ACAutomaton::build_from_map`: build the trie from the replacement
map (taken as a list of pattern-replacement pairs; the source iterates
an `unordered_map`, whose keys are unique), skipping empty patterns.
The failure-link pass is omitted: `apply_replace` never reads `fail`. -/
def build_from_map (rules : List (List Char × List Char)) : Node :=
  rules.foldl
    (fun acc pr => if pr.1 = [] then acc else insertPat acc pr.1 pr.2 pr.1.length)
    (.mk [] [] 0)

/-- Node reached from `n` by following the characters of a path (proof
helper; the source has no such function). -/
def pathNode (n : Node) : List Char → Option Node
  | [] => some n
  | c :: rest =>
      match findChild n.children c with
      | none => none
      | some child => pathNode child rest

/-- The inner loop of `ACAutomaton::apply_replace` at one position:
walk the trie along the text suffix `s`; stop with the pattern length
and replacement of the first node with `pattern_len > 0`, or with
`none` when no child exists for the next scalar or the text ends. -/
def matchFrom (cur : Node) : List Char → Option (Nat × List Char)
  | [] => none
  | c :: rest =>
      match findChild cur.children c with
      | none => none
      | some child =>
          if 0 < child.patternLen then some (child.patternLen, child.replacement)
          else matchFrom child rest

/-- The outer loop of `ACAutomaton::apply_replace`: at each position
either emit a replacement and advance by the matched length, or copy
one scalar and advance by one.  `fuel` bounds the iteration count (the
position strictly increases each step, so `text.length` suffices). -/
def applyGo (root : Node) (text : List Char) : Nat → Nat → List Char → Nat → List Char × Nat
  | 0, _, acc, cnt => (acc, cnt)
  | fuel + 1, pos, acc, cnt =>
      if h : pos < text.length then
        match matchFrom root (text.drop pos) with
        | some (l, rep) => applyGo root text fuel (pos + l) (acc ++ rep) (cnt + 1)
        | none => applyGo root text fuel (pos + 1) (acc ++ [text.get ⟨pos, h⟩]) cnt
      else (acc, cnt)

/-- `ACAutomaton::apply_replace`: the rewritten text and the number of
replacements applied. -/
def apply_replace (root : Node) (text : List Char) : List Char × Nat :=
  applyGo root text text.length 0 [] 0

/-! ## Shared data contracts (src/base/types.h) -/

/-- `ProtectedInterval`: position of the first scalar of the start
marker, position of the last scalar of the end marker, and the two
marker lengths. -/
structure ProtectedInterval : Type where
  start_first : Nat
  end_last : Nat
  start_marker_len : Nat
  end_marker_len : Nat
deriving DecidableEq, Repr

/-- `ProtectedInterval::skip_to`: the position right after the end
marker. -/
def ProtectedInterval.skip_to (iv : ProtectedInterval) : Nat :=
  iv.end_last + 1

/-- `Page`: page id, start position (inclusive), end position
(exclusive) and the protected flag.  The owner pointer of the source is
not modelled. -/
structure Page : Type where
  pid : Nat
  startPos : Nat
  endPos : Nat
  isProtected : Bool
deriving DecidableEq, Repr

/-- `ProcessingResult`: the per-file outcome surfaced to the caller. -/
structure ProcessingResult : Type where
  ok : Bool
  errMsg : String
  nRep : Nat
deriving DecidableEq, Repr

/-- `PageResult` (the fields the sequential model uses): page id,
processed text and replacement count. -/
structure PageResult : Type where
  pageId : Nat
  text : List Char
  nRep : Nat
deriving DecidableEq, Repr

/-! ## Protected scanner (FileProcessor::build_protected_intervals) -/

/-- `std::wstring::find(needle, start)` : the smallest index `j ≥ start`
with `j + needle.length ≤ hay.length` at which `needle` occurs, `none`
for `npos`.  `fuel` bounds the search (`hay.length + 1` suffices). -/
def strFindAux (hay needle : List Char) : Nat → Nat → Option Nat
  | 0, _ => none
  | fuel + 1, j =>
      if j + needle.length ≤ hay.length then
        if (hay.drop j).take needle.length = needle then some j
        else strFindAux hay needle fuel (j + 1)
      else none

def strFind (hay needle : List Char) (start : Nat) : Option Nat :=
  strFindAux hay needle (hay.length + 1) start

/-- The start-marker matching loop of `build_protected_intervals`: try
each configured `(start_marker, end_marker)` pair in configured order;
the first pair whose start marker occurs at `pos` wins. -/
def findStartMarker (regions : List (List Char × List Char)) (text : List Char) (pos : Nat) :
    Option (List Char × List Char) :=
  match regions with
  | [] => none
  | (sm, em) :: rest =>
      if pos + sm.length ≤ text.length ∧ (text.drop pos).take sm.length = sm then
        some (sm, em)
      else findStartMarker rest text pos

/-- The scan loop of `FileProcessor::build_protected_intervals`,
including the early exit that compares the remaining length against the
length of the FIRST configured start marker (`_protected_regions.front()`),
passed in as `frontLen`.  `fuel` bounds the iteration count. -/
def scanGo (regions : List (List Char × List Char)) (frontLen : Nat) (text : List Char) :
    Nat → Nat → List ProtectedInterval
  | 0, _ => []
  | fuel + 1, pos =>
      if pos < text.length then
        if text.length - pos < frontLen then []
        else
          match findStartMarker regions text pos with
          | some (sm, em) =>
              match strFind text em (pos + sm.length) with
              | none => []
              | some endBegin =>
                  ⟨pos, endBegin + em.length - 1, sm.length, em.length⟩ ::
                    scanGo regions frontLen text fuel (endBegin + em.length)
          | none => scanGo regions frontLen text fuel (pos + 1)
      else []

/-- Insertion sort by `start_first` (the final `std::sort` of
`build_protected_intervals`; the scan emits strictly increasing start
positions, so any comparison sort agrees). -/
def insertByStart (iv : ProtectedInterval) : List ProtectedInterval → List ProtectedInterval
  | [] => [iv]
  | x :: xs =>
      if iv.start_first < x.start_first then iv :: x :: xs else x :: insertByStart iv xs

def sortByStart : List ProtectedInterval → List ProtectedInterval
  | [] => []
  | x :: xs => insertByStart x (sortByStart xs)

/-- `FileProcessor::build_protected_intervals`: empty region list or
empty text give an empty interval list; otherwise the single-pass scan
followed by the sort. -/
def build_protected_intervals (regions : List (List Char × List Char)) (text : List Char) :
    List ProtectedInterval :=
  match regions with
  | [] => []
  | (sm0, _) :: _ =>
      if text.isEmpty then []
      else sortByStart (scanGo regions sm0.length text (text.length + 1) 0)

/-- Modelled from the spec: the single-pass reference scanner of spec
section 4.2 (the claim C4 compares the code against it).  At each
cursor position every configured start marker is attempted in
configured order, the first match wins; on a match the corresponding
end marker is searched from right after the start marker; an interval
is emitted and the cursor jumps past the end marker; a missing end
marker terminates the scan; otherwise the cursor advances by one.
There is no early exit. -/
def specReferenceScanGo (regions : List (List Char × List Char)) (text : List Char) :
    Nat → Nat → List ProtectedInterval
  | 0, _ => []
  | fuel + 1, pos =>
      if pos < text.length then
        match findStartMarker regions text pos with
        | some (sm, em) =>
            match strFind text em (pos + sm.length) with
            | none => []
            | some endBegin =>
                ⟨pos, endBegin + em.length - 1, sm.length, em.length⟩ ::
                  specReferenceScanGo regions text fuel (endBegin + em.length)
        | none => specReferenceScanGo regions text fuel (pos + 1)
      else []

/-- Modelled from the spec: entry point of the section 4.2 reference
scanner. -/
def specReferenceScan (regions : List (List Char × List Char)) (text : List Char) :
    List ProtectedInterval :=
  specReferenceScanGo regions text (text.length + 1) 0

/-! ## Pager (FileProcessor::create_pages) -/

/-- `PageConfig::SIZE`, the target page size. -/
def pageSize : Nat := 16 * 1024

/-- `size_t` subtraction with wrap-around modulo `2 ^ 64` (the source
computes `end_pos - 100` on `size_t`, which wraps for `end_pos < 100`). -/
def sizeTSub (a b : Nat) : Nat :=
  (a + (2 ^ 64 - b % 2 ^ 64)) % 2 ^ 64

/-- `std::wstring::rfind(ch, j)`: the largest index `k ≤ j` with
`s.get k = ch`, `none` for `npos` (indices past the end never match
because `s[k]?` is `none` there). -/
def rfindChar (s : List Char) (c : Char) : Nat → Option Nat
  | 0 => if s[0]? = some c then some 0 else none
  | j + 1 => if s[j + 1]? = some c then some (j + 1) else rfindChar s c j

/-- The boundary-snapping step of `create_pages` (lines 922-932 of the
loop): snap the tentative page end leftward to just past the nearest
newline, else the nearest space, provided it lies strictly after
`search_start = max(start, end_pos - 100)`; keep the tentative end
otherwise.  The `size_t` subtraction `end_pos - 100` wraps modulo
`2 ^ 64`, so for `end_pos < 100` the window is empty and no snap
happens. -/
def snapEnd (content : List Char) (start endPos : Nat) : Nat :=
  let searchStart := max start (sizeTSub endPos 100)
  match rfindChar content '\n' endPos with
  | some lb =>
      if searchStart < lb then lb + 1
      else
        match rfindChar content ' ' endPos with
        | some sp => if searchStart < sp then sp + 1 else endPos
        | none => endPos
  | none =>
      match rfindChar content ' ' endPos with
      | some sp => if searchStart < sp then sp + 1 else endPos
      | none => endPos

/-- The regular-page end computation of `create_pages` (the else branch
of the loop): tentative end at `start + SIZE` capped by the content
size, clamp before a protected region ahead, boundary snapping, and the
re-clamp after snapping.  `pa` is `some iv` exactly when the source's
`has_protected_ahead` is true for the interval `iv`. -/
def regularEnd (content : List Char) (pa : Option ProtectedInterval) (start : Nat) : Nat :=
  let contentSize := content.length
  let end0 := min (start + pageSize) contentSize
  let end1 :=
    match pa with
    | some iv => if iv.start_first < end0 then iv.start_first else end0
    | none => end0
  if decide (end1 < contentSize) && (match pa with
      | some iv => decide (end1 < iv.start_first)
      | none => true) then
    let snapped := snapEnd content start end1
    match pa with
    | some iv => if iv.start_first < snapped then iv.start_first else snapped
    | none => snapped
  else end1

/-- The loop of `FileProcessor::create_pages`: emit one protected page
per protected interval whose start is reached, and regular pages (of at
most `SIZE` scalars before snapping) in between, never crossing into a
protected region.  `fuel` bounds the iteration count (the cursor
strictly increases for well-formed interval lists, so
`content.length + 1` suffices). -/
def createPagesGo (content : List Char) (intervals : List ProtectedInterval) :
    Nat → Nat → Nat → Nat → List Page
  | 0, _, _, _ => []
  | fuel + 1, start, k, pid =>
      if start < content.length then
        match intervals[k]? with
        | some iv =>
            if start ≤ iv.start_first then
              if start = iv.start_first then
                ⟨pid, start, iv.skip_to, true⟩ ::
                  createPagesGo content intervals fuel iv.skip_to (k + 1) (pid + 1)
              else
                let e := regularEnd content (some iv) start
                ⟨pid, start, e, false⟩ :: createPagesGo content intervals fuel e k (pid + 1)
            else
              let e := regularEnd content none start
              ⟨pid, start, e, false⟩ :: createPagesGo content intervals fuel e k (pid + 1)
        | none =>
            let e := regularEnd content none start
            ⟨pid, start, e, false⟩ :: createPagesGo content intervals fuel e k (pid + 1)
      else []

/-- `FileProcessor::create_pages`: empty content yields no pages;
otherwise the paging loop from position 0. -/
def create_pages (content : List Char) (intervals : List ProtectedInterval) : List Page :=
  if content.isEmpty then []
  else createPagesGo content intervals (content.length + 1) 0 0 0

/-! ## Page processing and writeback
(FileProcessor::process_page, FileProcessor::writeback) -/

/-- `FileProcessor::process_page` (sequential model): extract the page
slice; protected pages pass through unchanged with count 0, other pages
run the matcher. -/
def process_page (root : Node) (content : List Char) (p : Page) : PageResult :=
  let extracted := (content.drop p.startPos).take (p.endPos - p.startPos)
  if p.isProtected then ⟨p.pid, extracted, 0⟩
  else
    let res := apply_replace root extracted
    ⟨p.pid, res.1, res.2⟩

/-- `FileProcessor::writeback`: the bytes written for one file, `none`
when nothing is written.  A zero total replacement count returns
immediately without opening the file; otherwise the processed pages are
concatenated in page-id order and a single `'\n'` is appended
(`output_file << '\n';`). -/
def writeback (totalReplacements : Nat) (processedPages : List (List Char)) :
    Option (List Char) :=
  if totalReplacements = 0 then none
  else some (processedPages.flatten ++ ['\n'])

/-- The per-file pipeline of `FileProcessor::process_files`,
sequentialized: `loaded` is the decoded content when the load succeeded
(`none` for binary or unreadable files).  A missing content or an empty
page list yields the failed result of the aggregation loop; otherwise
every page is processed, the total replacement count accumulated, and
the writeback performed.  The second component is the content written
back to disk (`none` when the file is untouched). -/
def processFile (root : Node) (regions : List (List Char × List Char))
    (loaded : Option (List Char)) : ProcessingResult × Option (List Char) :=
  match loaded with
  | none => (⟨false, "Failed to load file content", 0⟩, none)
  | some content =>
      let intervals := build_protected_intervals regions content
      let pages := create_pages content intervals
      if pages.isEmpty then (⟨false, "Failed to load file content", 0⟩, none)
      else
        let results := pages.map (process_page root content)
        let total := (results.map PageResult.nRep).sum
        (⟨true, "", total⟩, writeback total (results.map PageResult.text))

/-! ## Binary-file heuristic (FileProcessor::is_text_file) -/

/-- `FileProcessor::is_text_file` on the raw bytes of the file: read at
most 1024 bytes, count NUL bytes, and compare `null_bytes * 100 /
max(bytes_read, 1)` against 1 with integer division. -/
def is_text_file (bytes : List Nat) : Bool :=
  let buffer := bytes.take 1024
  let bytesRead := buffer.length
  let nullBytes := buffer.count 0
  nullBytes * 100 / max bytesRead 1 < 1

/-- The claim's text predicate: the NUL count among the first 1024 raw
bytes is strictly less than 1% of the number of bytes actually read. -/
def claimIsText (bytes : List Nat) : Bool :=
  (bytes.take 1024).count 0 * 100 < (bytes.take 1024).length

/-! ## Thread sizing (FileProcessor::process_files lines 731-738,
ThreadPool::scaling, Hardware::AUTO_NUM_THREADS) -/

/-- `Hardware::AUTO_NUM_THREADS = static_cast<size_t>(hw * 1.5)`:
the truncated product, exact in double for realistic core counts. -/
def autoNumThreads (hw : Nat) : Nat :=
  hw * 3 / 2

/-- The thread-count computation of `process_files`: with
`max_threads = 0` take `min(files * 2, AUTO_NUM_THREADS)` clamped to at
least 1, otherwise `min(max_threads, AUTO_NUM_THREADS)`. -/
def computeNumThreads (maxThreads numFiles auto : Nat) : Nat :=
  if maxThreads = 0 then max (min (numFiles * 2) auto) 1
  else min maxThreads auto

/-- `ThreadPool::scaling`: the worker count after the call.  The
argument is treated as an INCREMENT (`new_thread_count = _workers.size()
+ n_inc`); a zero argument is a no-op. -/
def scaling (workers nInc : Nat) : Nat :=
  if nInc = 0 then workers else workers + nInc

/-- The pool size after `process_files` computes the thread count and
calls `scaling`; the `FileProcessor` constructor builds the pool with
one worker (`_thread_pool(ThreadPool(1))`). -/
def processFilesPoolSize (workers maxThreads numFiles auto : Nat) : Nat :=
  scaling workers (computeNumThreads maxThreads numFiles auto)

/-! ## Statement helpers -/

/-- The pages tile `[s, e)` exactly: the first page starts at `s`, each
page is non-empty and starts where its predecessor ends, and the last
page ends at `e` (for the empty list, `s = e`). -/
def tilesFromTo (s e : Nat) : List Page → Prop
  | [] => s = e
  | p :: rest => p.startPos = s ∧ p.startPos < p.endPos ∧ tilesFromTo p.endPos e rest

/-- Well-formed protected interval list for a content: every interval
has `start_first ≤ end_last` and `end_last < content.length`, and the
list is sorted and pairwise non-overlapping (`end_last` of an earlier
interval strictly below `start_first` of every later one). -/
def wfIntervals (content : List Char) (ivs : List ProtectedInterval) : Prop :=
  (∀ iv ∈ ivs, iv.start_first ≤ iv.end_last ∧ iv.end_last < content.length) ∧
    List.Pairwise (fun a b => a.end_last < b.start_first) ivs

/-- The span of a page, as a start-end pair. -/
def pageSpan (p : Page) : Nat × Nat := (p.startPos, p.endPos)

/-- The span of a protected interval, as a start-end pair (the end is
exclusive, one past `end_last`). -/
def ivSpan (iv : ProtectedInterval) : Nat × Nat := (iv.start_first, iv.end_last + 1)

/-! # Theorems -/

/-! ## Helper lemmas on the scanner -/

/-- A successful start-marker lookup stays inside the text and matches
the start marker at the position. -/
theorem findStartMarker_some {regions : List (List Char × List Char)} {text : List Char}
    {pos : Nat} {sm em : List Char}
    (h : findStartMarker regions text pos = some (sm, em)) :
    pos + sm.length ≤ text.length ∧ (text.drop pos).take sm.length = sm ∧
      (sm, em) ∈ regions := by
  induction regions with
  | nil => simp [findStartMarker] at h
  | cons hd tl ih =>
    obtain ⟨sm', em'⟩ := hd
    rw [findStartMarker] at h
    split at h
    · rename_i hcond
      obtain ⟨h1, h2⟩ := Prod.mk.injEq .. ▸ (Option.some.injEq .. ▸ h)
      subst h1; subst h2
      exact ⟨hcond.1, hcond.2, List.mem_cons_self _ _⟩
    · obtain ⟨a, b, c⟩ := ih h
      exact ⟨a, b, List.mem_cons_of_mem _ c⟩

/-- `std::wstring::find` with an empty needle returns the start
position whenever it is within the text. -/
theorem strFind_nil {hay : List Char} {start : Nat} (h : start ≤ hay.length) :
    strFind hay [] start = some start := by
  have : strFindAux hay [] (hay.length + 1) start = some start := by
    rw [strFindAux]
    simp [h]
  exact this

/-! ## Helper lemmas on the trie -/

/-- Updating a child and looking the same key up yields the update. -/
theorem findChild_setChild_self (cs : List (Char × Node)) (c : Char) (n : Node) :
    findChild (setChild cs c n) c = some n := by
  induction cs with
  | nil => simp [setChild, findChild]
  | cons p rest ih =>
    obtain ⟨c', n'⟩ := p
    by_cases h : c' = c
    · subst h
      simp [setChild, findChild]
    · simp only [setChild, if_neg h, findChild, ih]

/-- Updating a child leaves the other keys unchanged. -/
theorem findChild_setChild_other (cs : List (Char × Node)) (c c' : Char) (n : Node)
    (h : c' ≠ c) : findChild (setChild cs c n) c' = findChild cs c' := by
  induction cs with
  | nil =>
    simp only [setChild, findChild]
    rw [if_neg (fun he => h he.symm)]
  | cons p rest ih =>
    obtain ⟨c'', n''⟩ := p
    by_cases h2 : c'' = c
    · subst h2
      simp only [setChild, if_pos rfl, findChild]
      rw [if_neg (fun he => h he.symm), if_neg (fun he => h he.symm)]
    · simp only [setChild, if_neg h2, findChild, ih]

/-- The empty node has no descendants carrying a pattern. -/
theorem pathNode_empty {s : List Char} {m : Node}
    (h : pathNode (.mk [] [] 0) s = some m) : m.patternLen = 0 ∧ m.replacement = [] := by
  match s with
  | [] =>
    cases h
    exact ⟨rfl, rfl⟩
  | c :: s' =>
    rw [pathNode] at h
    simp [Node.children, findChild] at h

/-- Inserting a pattern creates a terminal node at its path, carrying
the stored replacement and length. -/
theorem pathNode_insertPat_self (n : Node) (pat rep : List Char) (L : Nat) :
    ∃ m, pathNode (insertPat n pat rep L) pat = some m ∧
      m.patternLen = L ∧ m.replacement = rep := by
  induction pat generalizing n with
  | nil => exact ⟨_, rfl, rfl, rfl⟩
  | cons c rest ih =>
    obtain ⟨m, hm, h1, h2⟩ := ih ((findChild n.children c).getD (.mk [] [] 0))
    refine ⟨m, ?_, h1, h2⟩
    rw [insertPat, pathNode]
    simp only [Node.children]
    rw [findChild_setChild_self]
    exact hm

/-- A node reached along a path other than the inserted pattern either
existed before the insertion with the same stored data, or is a fresh
node with no pattern. -/
theorem pathNode_insertPat_other (pat : List Char) :
    ∀ (n : Node) (rep : List Char) (L : Nat) (s : List Char), s ≠ pat →
      ∀ m', pathNode (insertPat n pat rep L) s = some m' →
        (∃ m0, pathNode n s = some m0 ∧ m'.patternLen = m0.patternLen ∧
          m'.replacement = m0.replacement) ∨
        (pathNode n s = none ∧ m'.patternLen = 0 ∧ m'.replacement = []) := by
  induction pat with
  | nil =>
    intro n rep L s hs m' h
    obtain ⟨cs, nrep, npl⟩ := n
    match s with
    | [] => exact absurd rfl hs
    | c :: s' =>
      rw [insertPat, pathNode] at h
      simp only [Node.children] at h
      rw [pathNode]
      simp only [Node.children]
      match hfc : findChild cs c with
      | none =>
        rw [hfc] at h
        cases h
      | some child =>
        rw [hfc] at h
        exact Or.inl ⟨m', h, rfl, rfl⟩
  | cons c pat' ih =>
    intro n rep L s hs m' h
    obtain ⟨cs, nrep, npl⟩ := n
    match s with
    | [] =>
      rw [insertPat, pathNode] at h
      cases h
      rw [pathNode]
      exact Or.inl ⟨_, rfl, rfl, rfl⟩
    | d :: s' =>
      rw [insertPat, pathNode] at h
      simp only [Node.children] at h
      rw [pathNode]
      simp only [Node.children]
      by_cases hdc : d = c
      · subst hdc
        rw [findChild_setChild_self] at h
        have hs' : s' ≠ pat' := fun he => hs (by rw [he])
        match hfc : findChild cs d with
        | some realChild =>
          rw [hfc] at h
          simp only [Option.getD_some] at h
          exact ih realChild rep L s' hs' m' h
        | none =>
          rw [hfc] at h
          simp only [Option.getD_none] at h
          rcases ih (.mk [] [] 0) rep L s' hs' m' h with ⟨m0, hm0, he1, he2⟩ | ⟨-, he1, he2⟩
          · obtain ⟨hz1, hz2⟩ := pathNode_empty hm0
            exact Or.inr ⟨rfl, by omega, by rw [he2, hz2]⟩
          · exact Or.inr ⟨rfl, he1, he2⟩
      · rw [findChild_setChild_other _ _ _ _ hdc] at h
        match hfc : findChild cs d with
        | none =>
          rw [hfc] at h
          cases h
        | some child =>
          rw [hfc] at h
          exact Or.inl ⟨m', h, rfl, rfl⟩

/-- Paths other than the inserted pattern that existed before an
insertion still exist afterwards, with the same stored data. -/
theorem pathNode_insertPat_keep (pat : List Char) :
    ∀ (n : Node) (rep : List Char) (L : Nat) (s : List Char), s ≠ pat →
      ∀ m0, pathNode n s = some m0 →
        ∃ m', pathNode (insertPat n pat rep L) s = some m' ∧
          m'.patternLen = m0.patternLen ∧ m'.replacement = m0.replacement := by
  induction pat with
  | nil =>
    intro n rep L s hs m0 h
    obtain ⟨cs, nrep, npl⟩ := n
    match s with
    | [] => exact absurd rfl hs
    | c :: s' =>
      rw [pathNode] at h
      simp only [Node.children] at h
      rw [insertPat, pathNode]
      simp only [Node.children]
      match hfc : findChild cs c with
      | none =>
        rw [hfc] at h
        cases h
      | some child =>
        rw [hfc] at h
        exact ⟨m0, h, rfl, rfl⟩
  | cons c pat' ih =>
    intro n rep L s hs m0 h
    obtain ⟨cs, nrep, npl⟩ := n
    match s with
    | [] =>
      cases h
      exact ⟨_, rfl, rfl, rfl⟩
    | d :: s' =>
      rw [pathNode] at h
      simp only [Node.children] at h
      rw [insertPat, pathNode]
      simp only [Node.children]
      by_cases hdc : d = c
      · subst hdc
        rw [findChild_setChild_self]
        match hfc : findChild cs d with
        | none =>
          rw [hfc] at h
          cases h
        | some realChild =>
          rw [hfc] at h
          simp only [Option.getD_some]
          exact ih realChild rep L s' (fun he => hs (by rw [he])) m0 h
      · rw [findChild_setChild_other _ _ _ _ hdc]
        match hfc : findChild cs d with
        | none =>
          rw [hfc] at h
          cases h
        | some child =>
          rw [hfc] at h
          exact ⟨m0, h, rfl, rfl⟩

/-- Invariant of the trie-building fold: after processing the remaining
rules `rs` on top of a trie that models the already-processed rules
`acc`, the terminal nodes correspond exactly to `acc ++ rs`. -/
theorem build_loop_inv :
    ∀ (rs acc : List (List Char × List Char)) (n : Node),
      ((acc ++ rs).map Prod.fst).Nodup →
      (∀ s m, pathNode n s = some m → 0 < m.patternLen →
        (s, m.replacement) ∈ acc ∧ m.patternLen = s.length) →
      (∀ q r, (q, r) ∈ acc → q ≠ [] →
        ∃ m, pathNode n q = some m ∧ m.patternLen = q.length ∧ m.replacement = r) →
      (∀ s m, pathNode (rs.foldl
          (fun a pr => if pr.1 = [] then a else insertPat a pr.1 pr.2 pr.1.length) n) s
            = some m → 0 < m.patternLen →
        (s, m.replacement) ∈ acc ++ rs ∧ m.patternLen = s.length) ∧
      (∀ q r, (q, r) ∈ acc ++ rs → q ≠ [] →
        ∃ m, pathNode (rs.foldl
          (fun a pr => if pr.1 = [] then a else insertPat a pr.1 pr.2 pr.1.length) n) q
            = some m ∧ m.patternLen = q.length ∧ m.replacement = r) := by
  intro rs
  induction rs with
  | nil =>
    intro acc n hnd inv1 inv2
    simp only [List.foldl_nil, List.append_nil]
    exact ⟨inv1, inv2⟩
  | cons pr rest ih =>
    intro acc n hnd inv1 inv2
    obtain ⟨p, r⟩ := pr
    rw [List.foldl_cons]
    have hacc : acc ++ (p, r) :: rest = (acc ++ [(p, r)]) ++ rest := by
      rw [List.append_assoc]
      rfl
    rw [hacc] at hnd ⊢
    by_cases hp : p = []
    · rw [if_pos hp]
      refine ih (acc ++ [(p, r)]) n hnd ?_ ?_
      · intro s m h1 h2
        obtain ⟨ha, hb⟩ := inv1 s m h1 h2
        exact ⟨List.mem_append_left _ ha, hb⟩
      · intro q rq hq hqne
        rcases List.mem_append.mp hq with hq' | hq'
        · exact inv2 q rq hq' hqne
        · simp only [List.mem_singleton, Prod.mk.injEq] at hq'
          exact absurd (hq'.1.trans hp) hqne
    · rw [if_neg hp]
      have hkey : p ∉ acc.map Prod.fst ∧ p ∉ rest.map Prod.fst := by
        rw [List.map_append, List.map_append] at hnd
        obtain ⟨hnd1, hnd2, hdisj⟩ := List.nodup_append.mp hnd
        constructor
        · intro hmem
          obtain ⟨-, -, hdisj1⟩ := List.nodup_append.mp hnd1
          exact hdisj1 hmem (by simp)
        · intro hmem
          exact hdisj (List.mem_append_right _ (by simp)) hmem
      refine ih (acc ++ [(p, r)]) (insertPat n p r p.length) hnd ?_ ?_
      · intro s m h1 h2
        by_cases hsp : s = p
        · subst hsp
          obtain ⟨m1, hm1, hm1a, hm1b⟩ := pathNode_insertPat_self n s r s.length
          rw [hm1] at h1
          cases h1
          exact ⟨List.mem_append_right _ (by simp [hm1b]), hm1a⟩
        · rcases pathNode_insertPat_other p n r p.length s hsp m h1 with
            ⟨m0, hm0, he1, he2⟩ | ⟨-, he1, -⟩
          · have hold := inv1 s m0 hm0 (by omega)
            refine ⟨List.mem_append_left _ ?_, by rw [he1]; exact hold.2⟩
            rw [he2]
            exact hold.1
          · omega
      · intro q rq hq hqne
        rcases List.mem_append.mp hq with hq' | hq'
        · obtain ⟨m0, hm0, ha, hb⟩ := inv2 q rq hq' hqne
          have hqp : q ≠ p := by
            intro he
            subst he
            exact hkey.1 (List.mem_map_of_mem Prod.fst hq')
          obtain ⟨m', hm', h1, h2⟩ := pathNode_insertPat_keep p n r p.length q hqp m0 hm0
          exact ⟨m', hm', by rw [h1, ha], by rw [h2, hb]⟩
        · simp only [List.mem_singleton, Prod.mk.injEq] at hq'
          obtain ⟨rfl, rfl⟩ := hq'
          exact pathNode_insertPat_self n q rq q.length

/-- `build_from_map` correctness: for a rule list with pairwise
distinct patterns, terminal nodes of the built trie are exactly the
non-empty patterns, carrying their replacement and their length. -/
theorem build_from_map_terminal (rules : List (List Char × List Char))
    (hnodup : (rules.map Prod.fst).Nodup) :
    (∀ s m, pathNode (build_from_map rules) s = some m → 0 < m.patternLen →
      (s, m.replacement) ∈ rules ∧ m.patternLen = s.length) ∧
    (∀ q r, (q, r) ∈ rules → q ≠ [] →
      ∃ m, pathNode (build_from_map rules) q = some m ∧
        m.patternLen = q.length ∧ m.replacement = r) := by
  have h := build_loop_inv rules [] (.mk [] [] 0) (by simpa using hnodup)
    (fun s m h1 h2 => absurd (pathNode_empty h1).1 (by omega))
    (fun q r hq _ => absurd hq (List.not_mem_nil _))
  rw [build_from_map]
  simpa using h

/-- The match step returns the first terminal along the walk: when the
text matches a terminal pattern `q` none of whose proper non-empty
prefixes is terminal, the walk stops exactly at `q`'s node. -/
theorem matchFrom_of_terminal (q : List Char) :
    ∀ (n m : Node) (s : List Char), q ≠ [] → s.take q.length = q →
      pathNode n q = some m → 0 < m.patternLen →
      (∀ q' m', q' ≠ [] → q' ≠ q → q' = q.take q'.length →
        pathNode n q' = some m' → m'.patternLen = 0) →
      matchFrom n s = some (m.patternLen, m.replacement) := by
  induction q with
  | nil => exact fun n m s hq => absurd rfl hq
  | cons c rest ih =>
    intro n m s hq hmatch hpath hpl hmin
    match s with
    | [] => simp at hmatch
    | c' :: s' =>
      rw [List.length_cons, List.take_succ_cons] at hmatch
      injection hmatch with hc hrest
      subst hc
      obtain ⟨cs, nrep, npl⟩ := n
      rw [pathNode] at hpath
      simp only [Node.children] at hpath
      rw [matchFrom]
      simp only [Node.children]
      match hfc : findChild cs c' with
      | none =>
        rw [hfc] at hpath
        cases hpath
      | some child =>
        rw [hfc] at hpath
        dsimp only at hpath
        match rest, hpath with
        | [], hpath =>
          cases hpath
          dsimp only
          rw [if_pos hpl]
        | d :: rest', hpath =>
          have hchild0 : child.patternLen = 0 := by
            refine hmin [c'] child (by simp) (by simp) (by simp) ?_
            rw [pathNode]
            simp only [Node.children]
            rw [hfc]
            rfl
          dsimp only
          rw [if_neg (by omega)]
          refine ih child m s' (by simp) hrest hpath hpl ?_
          intro q' m' hq'ne hq'q hq'pre hq'path
          refine hmin (c' :: q') m' (by simp) ?_ ?_ ?_
          · intro he
            injection he with he1 he2
            exact hq'q he2
          · rw [List.length_cons, List.take_succ_cons, ← hq'pre]
          · rw [pathNode]
            simp only [Node.children]
            rw [hfc]
            exact hq'path

/-- A non-empty list of rules has one with a pattern of minimal
length. -/
theorem exists_min_pattern_length (cand : List (List Char × List Char)) (hne : cand ≠ []) :
    ∃ pr ∈ cand, ∀ pr' ∈ cand, pr.1.length ≤ pr'.1.length := by
  induction cand with
  | nil => exact absurd rfl hne
  | cons x xs ih =>
    match xs with
    | [] =>
      refine ⟨x, by simp, ?_⟩
      intro pr' hpr'
      rcases List.mem_cons.mp hpr' with rfl | h
      · exact Nat.le_refl _
      · cases h
    | y :: ys =>
      obtain ⟨m, hm, hmin⟩ := ih (by simp)
      by_cases hx : x.1.length ≤ m.1.length
      · refine ⟨x, by simp, ?_⟩
        intro pr' hpr'
        rcases List.mem_cons.mp hpr' with rfl | h
        · exact Nat.le_refl _
        · exact le_trans hx (hmin pr' h)
      · exact ⟨m, List.mem_cons_of_mem _ hm, fun pr' hpr' => by
          rcases List.mem_cons.mp hpr' with rfl | h
          · omega
          · exact hmin pr' h⟩

/-! ## Helper lemmas on the pager -/

/-- A successful `rfind` stays at or below the requested position and
hits the character. -/
theorem rfindChar_le {s : List Char} {c : Char} {j k : Nat}
    (h : rfindChar s c j = some k) : k ≤ j ∧ k < s.length := by
  induction j with
  | zero =>
    rw [rfindChar] at h
    split at h
    · rename_i hget
      cases h
      exact ⟨Nat.le_refl _, (List.getElem?_eq_some_iff.mp hget).1⟩
    · cases h
  | succ j ih =>
    rw [rfindChar] at h
    split at h
    · rename_i hget
      cases h
      exact ⟨Nat.le_refl _, (List.getElem?_eq_some_iff.mp hget).1⟩
    · obtain ⟨h1, h2⟩ := ih h
      exact ⟨Nat.le_succ_of_le h1, h2⟩

/-- Bounds of the boundary-snapping step: it keeps the cursor strictly
past `start` and at most one past the tentative end. -/
theorem snapEnd_spec (content : List Char) (start endPos : Nat) (h1 : start < endPos) :
    start < snapEnd content start endPos ∧ snapEnd content start endPos ≤ endPos + 1 := by
  rw [snapEnd]
  have hss : start ≤ max start (sizeTSub endPos 100) := Nat.le_max_left _ _
  rcases hlb : rfindChar content '\n' endPos with _ | lb <;>
    rcases hsp : rfindChar content ' ' endPos with _ | sp <;>
    simp only
  · omega
  · have := (rfindChar_le hsp).1
    split <;> omega
  · have := (rfindChar_le hlb).1
    split <;> omega
  · have h3 := (rfindChar_le hlb).1
    have h4 := (rfindChar_le hsp).1
    split <;> [omega; split] <;> omega

/-- Bounds of the regular-page end computation: it strictly advances
the cursor, stays within the content, and never crosses into a
protected region ahead. -/
theorem regularEnd_spec (content : List Char) (pa : Option ProtectedInterval) (start : Nat)
    (hs : start < content.length)
    (hpa : ∀ iv, pa = some iv → start < iv.start_first) :
    start < regularEnd content pa start ∧ regularEnd content pa start ≤ content.length ∧
      ∀ iv, pa = some iv → regularEnd content pa start ≤ iv.start_first := by
  have hps : 0 < pageSize := by decide
  have he0a : start < min (start + pageSize) content.length := lt_min_iff.mpr ⟨by omega, hs⟩
  have he0b : min (start + pageSize) content.length ≤ content.length := min_le_right _ _
  match pa with
  | none =>
    rw [regularEnd]
    simp only
    split
    · rename_i hcond
      simp only [Bool.and_eq_true, decide_eq_true_eq] at hcond
      have hsnap := snapEnd_spec content start (min (start + pageSize) content.length) he0a
      refine ⟨hsnap.1, by omega, by simp⟩
    · exact ⟨he0a, he0b, by simp⟩
  | some iv =>
    have hsf : start < iv.start_first := hpa iv rfl
    rw [regularEnd]
    simp only
    by_cases hclamp : iv.start_first < min (start + pageSize) content.length <;>
      simp only [hclamp, if_pos, if_neg, if_true, if_false]
    · -- end1 = iv.start_first, so the snap condition `end1 < start_first` is false
      rw [if_neg (by simp)]
      exact ⟨hsf, by omega, fun iv' hiv' => by cases hiv'; omega⟩
    · -- end1 = end0 ≤ iv.start_first
      have hle : min (start + pageSize) content.length ≤ iv.start_first := by omega
      split
      · rename_i hcond
        simp only [Bool.and_eq_true, decide_eq_true_eq] at hcond
        have hsnap := snapEnd_spec content start (min (start + pageSize) content.length) he0a
        refine ⟨?_, ?_, ?_⟩
        · split <;> omega
        · split <;> omega
        · intro iv' hiv'
          cases hiv'
          split <;> omega
      · exact ⟨he0a, he0b, fun iv' hiv' => by cases hiv'; omega⟩

/-- A tiling of `[s, e)` forces `s ≤ e`. -/
theorem tilesFromTo_le {s e : Nat} {ps : List Page} (h : tilesFromTo s e ps) : s ≤ e := by
  induction ps generalizing s with
  | nil => exact Nat.le_of_eq h
  | cons p rest ih =>
    obtain ⟨h1, h2, h3⟩ := h
    have := ih h3
    omega

/-- Every page of a tiling of `[s, e)` lies inside `[s, e)`. -/
theorem tilesFromTo_mem {s e : Nat} {ps : List Page} (h : tilesFromTo s e ps) :
    ∀ p ∈ ps, s ≤ p.startPos ∧ p.endPos ≤ e := by
  induction ps generalizing s with
  | nil => intro p hp; cases hp
  | cons q rest ih =>
    obtain ⟨h1, h2, h3⟩ := h
    intro p hp
    rcases List.mem_cons.mp hp with rfl | hp'
    · exact ⟨Nat.le_of_eq h1.symm, tilesFromTo_le h3⟩
    · have := ih h3 p hp'
      omega

/-- The paging loop invariant: starting at `start` with interval index
`k`, when the intervals from `k` on all begin at or after `start`, the
emitted pages tile `[start, content.length)`, the protected pages are
exactly the remaining intervals (same spans, same order), and no
non-protected page overlaps a remaining interval. -/
theorem createPagesGo_spec (content : List Char) (intervals : List ProtectedInterval)
    (hwf : wfIntervals content intervals) :
    ∀ fuel start k pid,
      content.length ≤ start + fuel →
      start ≤ content.length →
      (∀ iv ∈ intervals.drop k, start ≤ iv.start_first) →
      tilesFromTo start content.length (createPagesGo content intervals fuel start k pid) ∧
        ((createPagesGo content intervals fuel start k pid).filter
            (fun p => p.isProtected)).map pageSpan = (intervals.drop k).map ivSpan ∧
        ∀ p ∈ createPagesGo content intervals fuel start k pid, p.isProtected = false →
          ∀ iv ∈ intervals.drop k, p.endPos ≤ iv.start_first ∨ iv.end_last + 1 ≤ p.startPos := by
  obtain ⟨hbnd, hpw⟩ := hwf
  intro fuel
  induction fuel with
  | zero =>
    intro start k pid hfuel hstart h1
    have hdrop : intervals.drop k = [] := by
      rw [List.eq_nil_iff_forall_not_mem]
      intro iv hiv
      have h2 := hbnd iv (List.mem_of_mem_drop hiv)
      have h3 := h1 iv hiv
      omega
    rw [createPagesGo, hdrop]
    exact ⟨by simp only [tilesFromTo]; omega, rfl, by simp⟩
  | succ fuel ih =>
    intro start k pid hfuel hstart h1
    by_cases hs : start < content.length
    · rcases hk : intervals[k]? with _ | iv
      · -- no interval remains: a regular page with no protected region ahead
        have hdrop : intervals.drop k = [] :=
          List.drop_eq_nil_iff.mpr (List.getElem?_eq_none_iff.mp hk)
        have hre := regularEnd_spec content none start hs (fun iv h => by cases h)
        have ihres := ih (regularEnd content none start) k (pid + 1)
          (by omega) hre.2.1 (by rw [hdrop]; intro iv h; cases h)
        rw [createPagesGo, if_pos hs, hk]
        simp only
        refine ⟨⟨rfl, hre.1, ihres.1⟩, ?_, ?_⟩
        · rw [List.filter_cons_of_neg (by simp)]
          exact ihres.2.1
        · intro p hp hprot iv hiv
          rw [hdrop] at hiv
          cases hiv
      · obtain ⟨hklt, hkeq⟩ := List.getElem?_eq_some_iff.mp hk
        have hdropk : intervals.drop k = iv :: intervals.drop (k + 1) := by
          rw [List.drop_eq_getElem_cons hklt, hkeq]
        have hivmem : iv ∈ intervals.drop k := by
          rw [hdropk]; exact List.mem_cons_self _ _
        have hsle : start ≤ iv.start_first := h1 iv hivmem
        have hivb := hbnd iv (List.mem_of_mem_drop hivmem)
        have hpwtail : ∀ iv' ∈ intervals.drop (k + 1), iv.end_last < iv'.start_first := by
          have hpwdrop := hpw.sublist (List.drop_sublist k intervals)
          rw [hdropk] at hpwdrop
          exact fun iv' h' => (List.pairwise_cons.mp hpwdrop).1 iv' h'
        by_cases hseq : start = iv.start_first
        · -- protected page covering the interval
          have ihres := ih iv.skip_to (k + 1) (pid + 1)
            (by simp only [ProtectedInterval.skip_to]; omega)
            (by simp only [ProtectedInterval.skip_to]; omega)
            (by intro iv' h'
                have := hpwtail iv' h'
                simp only [ProtectedInterval.skip_to]
                omega)
          rw [createPagesGo, if_pos hs, hk]
          simp only [if_pos hsle, if_pos hseq]
          refine ⟨⟨rfl, by simp only [ProtectedInterval.skip_to]; omega, ihres.1⟩, ?_, ?_⟩
          · rw [List.filter_cons_of_pos (by simp), hdropk]
            simp only [List.map_cons, ihres.2.1]
            simp [pageSpan, ivSpan, ProtectedInterval.skip_to, hseq]
          · intro p hp hprot iv' hiv'
            rcases List.mem_cons.mp hp with rfl | hp'
            · simp at hprot
            · rw [hdropk] at hiv'
              rcases List.mem_cons.mp hiv' with rfl | hiv''
              · right
                have := (tilesFromTo_mem ihres.1 p hp').1
                simp only [ProtectedInterval.skip_to] at this
                omega
              · exact ihres.2.2 p hp' hprot iv' hiv''
        · -- regular page clamped before the interval
          have hslt : start < iv.start_first := lt_of_le_of_ne hsle hseq
          have hre := regularEnd_spec content (some iv) start hs
            (fun iv' h' => by cases h'; exact hslt)
          have hesf : regularEnd content (some iv) start ≤ iv.start_first := hre.2.2 iv rfl
          have h1' : ∀ iv' ∈ intervals.drop k,
              regularEnd content (some iv) start ≤ iv'.start_first := by
            intro iv' hiv'
            rw [hdropk] at hiv'
            rcases List.mem_cons.mp hiv' with rfl | h'
            · exact hesf
            · have := hpwtail iv' h'
              omega
          have ihres := ih (regularEnd content (some iv) start) k (pid + 1)
            (by omega) hre.2.1 h1'
          rw [createPagesGo, if_pos hs, hk]
          simp only [if_pos hsle, if_neg hseq]
          refine ⟨⟨rfl, hre.1, ihres.1⟩, ?_, ?_⟩
          · rw [List.filter_cons_of_neg (by simp)]
            exact ihres.2.1
          · intro p hp hprot iv' hiv'
            rcases List.mem_cons.mp hp with rfl | hp'
            · exact Or.inl (h1' iv' hiv')
            · exact ihres.2.2 p hp' hprot iv' hiv'
    · have hdrop : intervals.drop k = [] := by
        rw [List.eq_nil_iff_forall_not_mem]
        intro iv hiv
        have h2 := hbnd iv (List.mem_of_mem_drop hiv)
        have h3 := h1 iv hiv
        omega
      rw [createPagesGo, if_neg hs, hdrop]
      exact ⟨by simp only [tilesFromTo]; omega, rfl, by simp⟩

/-- Every page of a tiling is non-empty. -/
theorem tilesFromTo_pos {s e : Nat} {ps : List Page} (h : tilesFromTo s e ps) :
    ∀ p ∈ ps, p.startPos < p.endPos := by
  induction ps generalizing s with
  | nil => intro p hp; cases hp
  | cons q rest ih =>
    obtain ⟨h1, h2, h3⟩ := h
    intro p hp
    rcases List.mem_cons.mp hp with rfl | hp'
    · exact h2
    · exact ih h3 p hp'

/-- The first page of a non-empty tiling starts at the left edge. -/
theorem tilesFromTo_first {s e : Nat} {ps : List Page} (h : tilesFromTo s e ps)
    (h0 : 0 < ps.length) : (ps.get ⟨0, h0⟩).startPos = s := by
  match ps, h with
  | p :: rest, ⟨h1, _, _⟩ => exact h1

/-- The last page of a non-empty tiling ends at the right edge. -/
theorem tilesFromTo_last {s e : Nat} {ps : List Page} (h : tilesFromTo s e ps)
    (hne : ps ≠ []) : (ps.getLast hne).endPos = e := by
  induction ps generalizing s with
  | nil => exact absurd rfl hne
  | cons p rest ih =>
    match rest, h with
    | [], ⟨h1, h2, h3⟩ => simpa [List.getLast] using h3
    | q :: rest', ⟨h1, h2, h3⟩ =>
      rw [List.getLast_cons (by simp)]
      exact ih h3 (by simp)

/-- Consecutive pages of a tiling share their boundary. -/
theorem tilesFromTo_consec {s e : Nat} {ps : List Page} (h : tilesFromTo s e ps) :
    ∀ i (hi : i + 1 < ps.length),
      (ps.get ⟨i, Nat.lt_of_succ_lt hi⟩).endPos = (ps.get ⟨i + 1, hi⟩).startPos := by
  induction ps generalizing s with
  | nil => intro i hi; simp at hi
  | cons p rest ih =>
    obtain ⟨h1, h2, h3⟩ := h
    intro i hi
    match i with
    | 0 =>
      have hr0 : 0 < rest.length := by simpa using hi
      have := tilesFromTo_first h3 hr0
      simpa using this.symm
    | j + 1 =>
      have hj : j + 1 < rest.length := by simpa using hi
      simpa using ih h3 j hj

/-! ## C5: pages tile the content -/

/-- C5.  For every non-empty content and well-formed (sorted,
non-overlapping, contained) protected-interval list, `create_pages`
terminates (it is a total function) with a non-empty page list that
tiles the content exactly: the first page starts at 0, each page's end
is the next page's start, the last page ends at the content length, and
every page has `start_pos < end_pos`. -/
theorem create_pages_tiling (content : List Char) (intervals : List ProtectedInterval)
    (hne : content ≠ []) (hwf : wfIntervals content intervals) :
    create_pages content intervals ≠ [] ∧
      (∀ h0 : 0 < (create_pages content intervals).length,
        ((create_pages content intervals).get ⟨0, h0⟩).startPos = 0) ∧
      (∀ i (hi : i + 1 < (create_pages content intervals).length),
        ((create_pages content intervals).get ⟨i, Nat.lt_of_succ_lt hi⟩).endPos =
          ((create_pages content intervals).get ⟨i + 1, hi⟩).startPos) ∧
      (∀ hne2 : create_pages content intervals ≠ [],
        ((create_pages content intervals).getLast hne2).endPos = content.length) ∧
      (∀ p ∈ create_pages content intervals, p.startPos < p.endPos) := by
  have hlen : 0 < content.length := List.length_pos.mpr hne
  have hspec := createPagesGo_spec content intervals hwf (content.length + 1) 0 0 0
    (by omega) (by omega) (fun iv _ => Nat.zero_le _)
  have hcp : create_pages content intervals =
      createPagesGo content intervals (content.length + 1) 0 0 0 := by
    rw [create_pages, if_neg (by simpa [List.isEmpty_iff] using hne)]
  rw [hcp]
  have htiles := hspec.1
  refine ⟨?_, ?_, ?_, ?_, ?_⟩
  · intro hnil
    rw [hnil] at htiles
    simp only [tilesFromTo] at htiles
    omega
  · intro h0
    exact tilesFromTo_first htiles h0
  · exact tilesFromTo_consec htiles
  · intro hne2
    exact tilesFromTo_last htiles hne2
  · exact tilesFromTo_pos htiles

/-- Witness for C5 at a concrete input: content `"ab$x$c"` with the one
protected interval `[2, 4]`. -/
theorem create_pages_tiling_witness :
    create_pages ['a', 'b', '$', 'x', '$', 'c'] [⟨2, 4, 1, 1⟩] ≠ [] ∧
      (∀ h0 : 0 < (create_pages ['a', 'b', '$', 'x', '$', 'c'] [⟨2, 4, 1, 1⟩]).length,
        ((create_pages ['a', 'b', '$', 'x', '$', 'c'] [⟨2, 4, 1, 1⟩]).get ⟨0, h0⟩).startPos = 0) ∧
      (∀ i (hi : i + 1 < (create_pages ['a', 'b', '$', 'x', '$', 'c'] [⟨2, 4, 1, 1⟩]).length),
        ((create_pages ['a', 'b', '$', 'x', '$', 'c'] [⟨2, 4, 1, 1⟩]).get
            ⟨i, Nat.lt_of_succ_lt hi⟩).endPos =
          ((create_pages ['a', 'b', '$', 'x', '$', 'c'] [⟨2, 4, 1, 1⟩]).get ⟨i + 1, hi⟩).startPos) ∧
      (∀ hne2 : create_pages ['a', 'b', '$', 'x', '$', 'c'] [⟨2, 4, 1, 1⟩] ≠ [],
        ((create_pages ['a', 'b', '$', 'x', '$', 'c'] [⟨2, 4, 1, 1⟩]).getLast hne2).endPos =
          (['a', 'b', '$', 'x', '$', 'c'] : List Char).length) ∧
      (∀ p ∈ create_pages ['a', 'b', '$', 'x', '$', 'c'] [⟨2, 4, 1, 1⟩],
        p.startPos < p.endPos) :=
  create_pages_tiling ['a', 'b', '$', 'x', '$', 'c'] [⟨2, 4, 1, 1⟩]
    (by decide) (by constructor <;> decide)

/-- In a duplicate-free list, exactly one element is `==`-equal to a
member. -/
theorem countP_beq_eq_one {α : Type} [BEq α] [LawfulBEq α] {l : List α} {a : α}
    (hnd : l.Nodup) (ha : a ∈ l) : l.countP (fun s => s == a) = 1 := by
  induction l with
  | nil => cases ha
  | cons x xs ih =>
    rw [List.countP_cons]
    rcases List.mem_cons.mp ha with rfl | ha'
    · have hnotin : a ∉ xs := (List.nodup_cons.mp hnd).1
      have h0 : xs.countP (fun s => s == a) = 0 := by
        rw [List.countP_eq_zero]
        intro s hs
        simp only [beq_iff_eq]
        rintro rfl
        exact hnotin hs
      simp [h0]
    · have h1 : xs.countP (fun s => s == a) = 1 := ih (List.nodup_cons.mp hnd).2 ha'
      have hx : ¬ (x == a) = true := by
        simp only [beq_iff_eq]
        rintro rfl
        exact (List.nodup_cons.mp hnd).1 ha'
      simp [h1, hx]

/-! ## C2: protected intervals and pages -/

/-- C2.  For every content and well-formed (sorted, non-overlapping,
contained) protected-interval list, the protected pages of
`create_pages` are exactly the protected intervals: their spans, in
order, equal the interval spans `[start_first, end_last + 1)`; each
interval is the exact span of exactly one protected page; and no
non-protected page overlaps any interval. -/
theorem create_pages_protected (content : List Char) (intervals : List ProtectedInterval)
    (hwf : wfIntervals content intervals) :
    ((create_pages content intervals).filter (fun p => p.isProtected)).map pageSpan =
        intervals.map ivSpan ∧
      (∀ iv ∈ intervals,
        ((create_pages content intervals).filter (fun p =>
          p.isProtected && p.startPos == iv.start_first &&
            p.endPos == iv.end_last + 1)).length = 1) ∧
      ∀ p ∈ create_pages content intervals, p.isProtected = false →
        ∀ iv ∈ intervals, p.endPos ≤ iv.start_first ∨ iv.end_last + 1 ≤ p.startPos := by
  by_cases hne : content = []
  · have hivnil : intervals = [] := by
      rw [List.eq_nil_iff_forall_not_mem]
      intro iv hiv
      have := hwf.1 iv hiv
      simp [hne] at this
    subst hne hivnil
    refine ⟨rfl, by simp, by simp [create_pages]⟩
  · have hspec := createPagesGo_spec content intervals hwf (content.length + 1) 0 0 0
      (by omega) (by omega) (fun iv _ => Nat.zero_le _)
    have hcp : create_pages content intervals =
        createPagesGo content intervals (content.length + 1) 0 0 0 := by
      rw [create_pages, if_neg (by simpa [List.isEmpty_iff] using hne)]
    rw [List.drop_zero] at hspec
    rw [hcp]
    have hmap := hspec.2.1
    refine ⟨hmap, ?_, hspec.2.2⟩
    -- exactly one protected page per interval, from the span-list
    -- equality and the fact that interval spans are pairwise distinct
    intro iv hiv
    have hnodup : (intervals.map ivSpan).Nodup := by
      have hp1 : intervals.Pairwise (fun a b => ivSpan a ≠ ivSpan b) := by
        refine (hwf.2).imp_of_mem ?_
        intro a b ha hb hab
        have hA := hwf.1 a ha
        simp only [ivSpan, ne_eq, Prod.mk.injEq, not_and]
        intro h1 h2
        omega
      exact List.Pairwise.map ivSpan (fun a b h => h) hp1
    have hfeq : (createPagesGo content intervals (content.length + 1) 0 0 0).filter
        (fun p => p.isProtected && p.startPos == iv.start_first &&
          p.endPos == iv.end_last + 1) =
        ((createPagesGo content intervals (content.length + 1) 0 0 0).filter
          (fun p => p.isProtected)).filter (fun p => pageSpan p == ivSpan iv) := by
      rw [List.filter_filter]
      apply List.filter_congr
      intro p hp
      rw [Bool.eq_iff_iff]
      simp only [pageSpan, ivSpan, Prod.mk.injEq, Bool.and_eq_true, beq_iff_eq]
      constructor
      · rintro ⟨⟨hp1, hp2⟩, hp3⟩
        exact ⟨⟨hp2, hp3⟩, hp1⟩
      · rintro ⟨⟨hp1, hp2⟩, hp3⟩
        exact ⟨⟨hp3, hp1⟩, hp2⟩
    rw [hfeq, ← List.countP_eq_length_filter]
    have hcnt : (((createPagesGo content intervals (content.length + 1) 0 0 0).filter
        (fun p => p.isProtected)).map pageSpan).countP (fun s => s == ivSpan iv) =
        ((createPagesGo content intervals (content.length + 1) 0 0 0).filter
          (fun p => p.isProtected)).countP (fun p => pageSpan p == ivSpan iv) := by
      rw [List.countP_map]
      rfl
    rw [← hcnt, hmap]
    have hmem : ivSpan iv ∈ intervals.map ivSpan := List.mem_map_of_mem ivSpan hiv
    exact countP_beq_eq_one hnodup hmem

/-- Witness for C2 at a concrete input: content `"ab$x$c"` with the one
protected interval `[2, 4]`. -/
theorem create_pages_protected_witness :
    ((create_pages ['a', 'b', '$', 'x', '$', 'c'] [⟨2, 4, 1, 1⟩]).filter
        (fun p => p.isProtected)).map pageSpan = [⟨2, 4, 1, 1⟩].map ivSpan ∧
      (∀ iv ∈ [(⟨2, 4, 1, 1⟩ : ProtectedInterval)],
        ((create_pages ['a', 'b', '$', 'x', '$', 'c'] [⟨2, 4, 1, 1⟩]).filter (fun p =>
          p.isProtected && p.startPos == iv.start_first &&
            p.endPos == iv.end_last + 1)).length = 1) ∧
      ∀ p ∈ create_pages ['a', 'b', '$', 'x', '$', 'c'] [⟨2, 4, 1, 1⟩],
        p.isProtected = false →
        ∀ iv ∈ [(⟨2, 4, 1, 1⟩ : ProtectedInterval)],
          p.endPos ≤ iv.start_first ∨ iv.end_last + 1 ≤ p.startPos :=
  create_pages_protected ['a', 'b', '$', 'x', '$', 'c'] [⟨2, 4, 1, 1⟩]
    (by constructor <;> decide)

/-! ## C1: the matcher applies the shortest pattern, not the longest -/

/-- C1 fails on the code: with rules `ab → X` and `abc → Y`, the input
`"xabcy"` yields `"xXcy"` with replacement count 1 (the walk in
`apply_replace` stops at the FIRST terminal node), not the claimed
`"xYy"`. -/
theorem apply_replace_longest_cex :
    apply_replace (build_from_map [(['a', 'b'], ['X']), (['a', 'b', 'c'], ['Y'])])
        ['x', 'a', 'b', 'c', 'y'] = (['x', 'X', 'c', 'y'], 1) ∧
      ((['x', 'X', 'c', 'y'] : List Char), (1 : Nat)) ≠ (['x', 'Y', 'y'], 1) := by
  decide

/-- C1 amended.  For every rule list with pairwise distinct non-empty
patterns and every position where two configured patterns both match as
prefixes of the remaining text (one a proper prefix of the other), the
match step of `apply_replace` applies a configured pattern of MINIMAL
length among those matching there — in particular strictly shorter than
the longer of the two, so the longer pattern is never applied
(shortest-match-at-position; e.g. with `ab → X`, `abc → Y` the input
`"xabcy"` yields `"xXcy"` with count 1). -/
theorem apply_replace_shortest_match
    (rules : List (List Char × List Char)) (text : List Char) (i : Nat)
    (p₁ r₁ p₂ r₂ : List Char)
    (hnodup : (rules.map Prod.fst).Nodup)
    (hnonempty : ∀ pr ∈ rules, pr.1 ≠ [])
    (h₁ : (p₁, r₁) ∈ rules) (h₂ : (p₂, r₂) ∈ rules)
    (hlt : p₁.length < p₂.length) (hpre : p₂.take p₁.length = p₁)
    (hm₂ : (text.drop i).take p₂.length = p₂) :
    ∃ l rep, matchFrom (build_from_map rules) (text.drop i) = some (l, rep) ∧
      l ≤ p₁.length ∧ l < p₂.length ∧
      (∃ q, (q, rep) ∈ rules ∧ q.length = l ∧ (text.drop i).take l = q) ∧
      (∀ q' r', (q', r') ∈ rules → (text.drop i).take q'.length = q' → l ≤ q'.length) := by
  set s := text.drop i with hs
  have hm₁ : s.take p₁.length = p₁ := by
    have hstep : (s.take p₂.length).take p₁.length = s.take p₁.length := by
      rw [List.take_take, min_eq_left (Nat.le_of_lt hlt)]
    rw [← hstep, hm₂, hpre]
  set cand := rules.filter (fun pr => decide (s.take pr.1.length = pr.1)) with hcand
  have hp₁cand : (p₁, r₁) ∈ cand := List.mem_filter.mpr ⟨h₁, by simp [hm₁]⟩
  obtain ⟨⟨q, r⟩, hqcand, hqmin⟩ := exists_min_pattern_length cand
    (by intro h; rw [h] at hp₁cand; cases hp₁cand)
  dsimp only at hqmin
  obtain ⟨hqrules, hqmatch⟩ := List.mem_filter.mp hqcand
  have hqm : s.take q.length = q := of_decide_eq_true hqmatch
  have hqne : q ≠ [] := hnonempty (q, r) hqrules
  have hF := build_from_map_terminal rules hnodup
  obtain ⟨mq, hmq, hmqlen, hmqrep⟩ := hF.2 q r hqrules hqne
  have hminterm : ∀ q' m', q' ≠ [] → q' ≠ q → q' = q.take q'.length →
      pathNode (build_from_map rules) q' = some m' → m'.patternLen = 0 := by
    intro q' m' hne' hneq hpre' hpath'
    by_contra hpl'
    have hpl'' : 0 < m'.patternLen := Nat.pos_of_ne_zero hpl'
    obtain ⟨hq'rules, -⟩ := hF.1 q' m' hpath' hpl''
    have hq'le : q'.length ≤ q.length := by
      have hlen := congrArg List.length hpre'
      rw [List.length_take] at hlen
      omega
    have hq'm : s.take q'.length = q' := by
      have hstep : (s.take q.length).take q'.length = s.take q'.length := by
        rw [List.take_take, min_eq_left hq'le]
      rw [← hstep, hqm, ← hpre']
    have hq'cand : (q', m'.replacement) ∈ cand :=
      List.mem_filter.mpr ⟨hq'rules, by simp [hq'm]⟩
    have hge := hqmin (q', m'.replacement) hq'cand
    dsimp only at hge
    apply hneq
    rw [hpre', (by omega : q'.length = q.length), List.take_length]
  have hmatch := matchFrom_of_terminal q (build_from_map rules) mq s hqne hqm hmq
    (by have := List.length_pos.mpr hqne; omega) hminterm
  have hp₁min := hqmin (p₁, r₁) hp₁cand
  dsimp only at hp₁min
  refine ⟨mq.patternLen, mq.replacement, hmatch, by omega, by omega, ?_, ?_⟩
  · refine ⟨q, by rw [hmqrep]; exact hqrules, by omega, ?_⟩
    rw [hmqlen, hqm]
  · intro q' r' hq'rules hq'match
    have hq'cand : (q', r') ∈ cand := List.mem_filter.mpr ⟨hq'rules, by simp [hq'match]⟩
    have := hqmin (q', r') hq'cand
    dsimp only at this
    omega

/-- Witness for the amended C1 at the claim's own example: rules
`ab → X`, `abc → Y`, text `"xabcy"`, position 1. -/
theorem apply_replace_shortest_match_witness :
    ∃ l rep, matchFrom (build_from_map [(['a', 'b'], ['X']), (['a', 'b', 'c'], ['Y'])])
        ((['x', 'a', 'b', 'c', 'y'] : List Char).drop 1) = some (l, rep) ∧
      l ≤ (['a', 'b'] : List Char).length ∧ l < (['a', 'b', 'c'] : List Char).length ∧
      (∃ q, (q, rep) ∈ [(['a', 'b'], ['X']), (['a', 'b', 'c'], ['Y'])] ∧ q.length = l ∧
        ((['x', 'a', 'b', 'c', 'y'] : List Char).drop 1).take l = q) ∧
      (∀ q' r', (q', r') ∈ [(['a', 'b'], ['X']), (['a', 'b', 'c'], ['Y'])] →
        ((['x', 'a', 'b', 'c', 'y'] : List Char).drop 1).take q'.length = q' →
          l ≤ q'.length) :=
  apply_replace_shortest_match [(['a', 'b'], ['X']), (['a', 'b', 'c'], ['Y'])]
    ['x', 'a', 'b', 'c', 'y'] 1 ['a', 'b'] ['X'] ['a', 'b', 'c'] ['Y']
    (by decide) (by decide) (by decide) (by decide) (by decide) (by decide) (by decide)

/-! ## C8: empty end marker handling -/

/-- C8.  At any cursor position the scan reaches, when the first
matching configured start marker has an empty end marker, the scanner
emits a protected interval spanning exactly the start-marker occurrence
(`start_first = pos`, `end_last = pos + start_len - 1`, end length 0)
and resumes immediately after the marker (at a strictly larger cursor,
so no looping). -/
theorem scan_empty_end_marker_step (regions : List (List Char × List Char)) (frontLen : Nat)
    (text : List Char) (fuel pos : Nat) (sm : List Char)
    (hpos : pos < text.length) (hfront : frontLen ≤ text.length - pos)
    (hfind : findStartMarker regions text pos = some (sm, []))
    (hsm : sm ≠ []) :
    scanGo regions frontLen text (fuel + 1) pos =
      ⟨pos, pos + sm.length - 1, sm.length, 0⟩ ::
        scanGo regions frontLen text fuel (pos + sm.length) ∧
      pos < pos + sm.length := by
  obtain ⟨hle, -, -⟩ := findStartMarker_some hfind
  have hfindEmpty : strFind text [] (pos + sm.length) = some (pos + sm.length) :=
    strFind_nil hle
  constructor
  · rw [scanGo]
    simp only [hpos, if_true, hfind, hfindEmpty]
    rw [if_neg (by omega)]
    simp
  · have : 0 < sm.length := List.length_pos.mpr hsm
    omega

/-- Witness for C8 at a concrete input: regions `[("T", "")]`, text
`"aT"`, cursor 1. -/
theorem scan_empty_end_marker_step_witness :
    scanGo [(['T'], [])] 1 ['a', 'T'] 2 1 =
      ⟨1, 1, 1, 0⟩ :: scanGo [(['T'], [])] 1 ['a', 'T'] 1 2 ∧ (1 : Nat) < 1 + 1 :=
  scan_empty_end_marker_step [(['T'], [])] 1 ['a', 'T'] 1 1 ['T']
    (by decide) (by decide) (by decide) (by decide)

/-! ## C4: the early exit diverges from the section 4.2 reference -/

/-- C4 fails on the code: with configured regions
`[("$$", "$$"), ("T", "")]` and text `"aT"`, the occurrence of the
start marker `"T"` at position 1 is never matched, because the early
exit compares the remaining length (1) against the length of the FIRST
configured start marker (2); the reference algorithm of spec section
4.2 emits the interval `(1, 1, 1, 0)`. -/
theorem build_protected_intervals_early_exit_cex :
    build_protected_intervals [(['$', '$'], ['$', '$']), (['T'], [])] ['a', 'T'] = [] ∧
      specReferenceScan [(['$', '$'], ['$', '$']), (['T'], [])] ['a', 'T'] =
        [⟨1, 1, 1, 0⟩] := by
  decide

/-! ## C6: scaling adds workers instead of growing to the target -/

/-- C6 fails on the code: `ThreadPool::scaling` adds its argument to
the current worker count instead of growing the pool TO it.  With one
initial worker (the `FileProcessor` constructor), one file,
`max_threads = 4` and `AUTO_NUM_THREADS = 6`, the computed target is
`min(4, 6) = 4` but the pool ends with `1 + 4 = 5` workers. -/
theorem scaling_increments_cex :
    processFilesPoolSize 1 4 1 6 = 5 ∧ computeNumThreads 4 1 6 = 4 ∧ (5 : Nat) ≠ 4 := by
  decide

/-! ## C9: the binary-file heuristic -/

/-- C9 fails as stated at the empty file: zero bytes are read, the
claim's strict bound `0 < 1% of 0` is false, yet the code divides by
`max(bytes_read, 1)` and classifies the file as text. -/
theorem is_text_file_empty_cex :
    is_text_file [] = true ∧ claimIsText [] = false := by
  decide

/-- C9 amended.  `is_text_file` classifies the input as text iff the
NUL count among the first `min(1024, size)` raw bytes is strictly less
than 1% of `max(bytes_read, 1)`; for at least one byte read this is
exactly the claim's strict-1% bound, while an empty read is classified
as text. -/
theorem is_text_file_iff (bytes : List Nat) :
    is_text_file bytes = true ↔
      (bytes.take 1024).count 0 * 100 < max (bytes.take 1024).length 1 := by
  have hpos : 0 < max (bytes.take 1024).length 1 := by omega
  simp only [is_text_file, decide_eq_true_eq]
  rw [Nat.div_lt_iff_lt_mul hpos, one_mul]

/-! ## C3: writeback appends a newline -/

/-- C3 fails on the code: for a file with one processed page `"a"` and
a nonzero replacement count, the bytes written are `"a\n"`, not the
bare concatenation `"a"` (`FileProcessor::writeback` executes
`output_file << '\n';` after the pages). -/
theorem writeback_newline_cex :
    writeback 1 [['a']] = some ['a', '\n'] ∧
      writeback 1 [['a']] ≠ some (List.flatten [['a']]) := by
  decide

/-- C3 amended.  For every file whose total replacement count is
nonzero, `writeback` overwrites the file with the concatenation of the
processed pages in page-id order followed by one appended `'\n'`. -/
theorem writeback_concat_newline (total : Nat) (pages : List (List Char))
    (h : total ≠ 0) :
    writeback total pages = some (pages.flatten ++ ['\n']) := by
  simp [writeback, h]

/-- Witness for the amended C3 at a concrete input. -/
theorem writeback_concat_newline_witness :
    writeback 1 [['a'], ['b']] = some ([['a'], ['b']].flatten ++ ['\n']) :=
  writeback_concat_newline 1 [['a'], ['b']] (by decide)

/-! ## C7: zero replacements perform no write -/

/-- C7.  For every file processed by the pipeline, when the aggregated
result is ok and its total replacement count is zero, no write is
performed (`writeback` returns before opening the file), so the on-disk
file stays byte-for-byte unchanged, and the `ProcessingResult` carries
replacement count 0. -/
theorem zero_replacements_no_write (root : Node) (regions : List (List Char × List Char))
    (loaded : Option (List Char))
    (hok : (processFile root regions loaded).1.ok = true)
    (h0 : (processFile root regions loaded).1.nRep = 0) :
    (processFile root regions loaded).2 = none ∧
      (processFile root regions loaded).1.nRep = 0 := by
  refine ⟨?_, h0⟩
  match hl : loaded with
  | none => rfl
  | some content =>
    rw [processFile] at h0 ⊢
    by_cases hemp :
        (create_pages content (build_protected_intervals regions content)).isEmpty = true
    · rw [if_pos hemp]
    · rw [if_neg hemp] at h0 ⊢
      dsimp only at h0 ⊢
      rw [writeback, if_pos h0]

/-- Witness for C7 at a concrete input: an empty rule set and the
one-character file `"a"`. -/
theorem zero_replacements_no_write_witness :
    (processFile (build_from_map []) [] (some ['a'])).2 = none ∧
      (processFile (build_from_map []) [] (some ['a'])).1.nRep = 0 :=
  zero_replacements_no_write (build_from_map []) [] (some ['a'])
    (by decide) (by decide)

/-! ## C10: empty decoded content -/

/-- C10.  For every loaded file whose decoded content is empty, the
pipeline produces no pages, the per-file result is
`ok = false, "Failed to load file content"` with replacement count 0
(the same surfaced shape as binary or unreadable files), and nothing is
written to disk. -/
theorem empty_content_failed_result (root : Node) (regions : List (List Char × List Char)) :
    processFile root regions (some []) =
      (⟨false, "Failed to load file content", 0⟩, none) := by
  have hbpi : build_protected_intervals regions [] = [] := by
    match regions with
    | [] => rfl
    | (sm0, em0) :: rest => simp [build_protected_intervals]
  rw [processFile, hbpi]
  rfl

end Punp
